import Mathlib

/-!
Verification of the trie (prefix tree) implementation in trie.py of the
py-data-structures repository.

The development contains two shallow embeddings of the same source:

1. A pure tree model (`Node` and the operations on it). A Python
   Trie owns its tree exclusively (each child node has exactly one parent
   and the operations never share structure across tries), so the
   mutating methods of trie.py are translated into pure functions on an
   inductive tree. Python dicts are translated into association lists:
   lookup finds the unique entry with the given key, assignment of a new
   key appends, assignment of an existing key updates in place, and
   deletion removes the entry. Dict keys are unique; the Lean type of
   association lists is wider, so theorems that need key uniqueness take
   a well-formedness hypothesis (`Node.wf`).

2. A heap model (`Heap`, node ids as indices) for the View class, whose
   behaviour depends on object identity: a View caches a reference to a
   node of the tree and observes in-place mutation of that node. The
   heap model allocates nodes at fresh indices and mutates them in
   place, faithfully mirroring the Python object graph.
-/

/-! ## Association lists mirroring Python dict semantics -/

/-- Dict lookup: value of the first (with unique keys, only) entry whose
key equals the given key. -/
def findA [DecidableEq α] : List (α × β) → α → Option β
  | [], _ => none
  | (k, v) :: rest, a => if k = a then some v else findA rest a

/-- Dict assignment: update the entry in place when the key is present,
append a new entry otherwise (Python dicts keep insertion order). -/
def insertA [DecidableEq α] : List (α × β) → α → β → List (α × β)
  | [], a, v => [(a, v)]
  | (k, w) :: rest, a, v =>
    if k = a then (a, v) :: rest else (k, w) :: insertA rest a v

/-- Dict deletion: remove the entry with the given key. -/
def eraseA [DecidableEq α] : List (α × β) → α → List (α × β)
  | [], _ => []
  | (k, w) :: rest, a => if k = a then rest else (k, w) :: eraseA rest a

/-- Python `name in node.children`. -/
def hasKey [DecidableEq α] (l : List (α × β)) (a : α) : Bool :=
  (findA l a).isSome

/-- The keys of the association list are pairwise distinct, as they are
for a Python dict. -/
def keysNodup [DecidableEq α] : List (α × β) → Bool
  | [] => true
  | (k, _) :: rest => !(hasKey rest k) && keysNodup rest

/-! ## The pure tree model of Trie.Node -/

/-- Trie.Node: a children dict, the terminal flag and the size counter
(trie.py lines 29-32). -/
inductive Node (α : Type) : Type where
  | mk : List (α × Node α) → Bool → Nat → Node α

/-- The children attribute of a Node. -/
def Node.children : Node α → List (α × Node α)
  | .mk cs _ _ => cs

/-- The terminal attribute of a Node. -/
def Node.terminal : Node α → Bool
  | .mk _ t _ => t

/-- The size attribute of a Node; Trie.Node.__len__ and Trie.__len__
return it. -/
def Node.size : Node α → Nat
  | .mk _ _ sz => sz

/-- Trie.Node.__init__: no children, not terminal, size 0. A fresh Trie
consists of this single root node (Trie.__init__). -/
def Node.empty : Node α := .mk [] false 0

/-- Trie.Node.__contains__: walk the sequence through the children
dicts, returning False as soon as a name is absent, and the final
node's terminal flag otherwise. Trie.__contains__ is this from the
root. -/
def Node.member [DecidableEq α] : Node α → List α → Bool
  | n, [] => n.terminal
  | n, a :: s =>
    match findA n.children a with
    | none => false
    | some c => c.member s

/-- Trie.add: walk the sequence from the root, creating an empty child
node whenever a name is absent, and set the final node's terminal flag. -/
def Node.add [DecidableEq α] : Node α → List α → Node α
  | .mk cs _ sz, [] => .mk cs true sz
  | .mk cs t sz, a :: s =>
    .mk (insertA cs a (((findA cs a).getD Node.empty).add s)) t sz

/-- The descent and unwind of Trie.discard. Returns none when the walk
falls off the tree or the final node is not terminal (in Python the
method returns with the tree untouched); otherwise returns the updated
subtree. The unwind of the parent stack is the backward recursion: the
entry for the child is deleted from its parent exactly when the updated
child has no children left (the Python loop condition checks only
`not descendents`, not the terminal flag), and as soon as an updated
child keeps a nonempty children dict the entry is updated in place and
all nodes above are left as they were. -/
def Node.discardGo [DecidableEq α] : Node α → List α → Option (Node α)
  | n, [] =>
    if n.terminal then some (.mk n.children false n.size) else none
  | n, a :: s =>
    match findA n.children a with
    | none => none
    | some c =>
      match c.discardGo s with
      | none => none
      | some c' =>
        if c'.children.isEmpty then
          some (.mk (eraseA n.children a) n.terminal n.size)
        else
          some (.mk (insertA n.children a c') n.terminal n.size)

/-- Trie.discard: the state of the tree after the call. -/
def Node.discard [DecidableEq α] (n : Node α) (s : List α) : Node α :=
  (n.discardGo s).getD n

mutual
/-- Trie.Node.__iter__: if terminal, yield the empty suffix, then for
every child in dict (insertion) order yield the child's suffixes with
the child's name prepended. Trie.__iter__ is this from the root. -/
def Node.enum : Node α → List (List α)
  | .mk cs t _ => (if t then [[]] else []) ++ enumL cs
/-- Enumeration of the children list of a node, in insertion order. -/
def enumL : List (α × Node α) → List (List α)
  | [] => []
  | (a, c) :: rest => (Node.enum c).map (fun s => a :: s) ++ enumL rest
end

mutual
/-- Well-formedness of a tree as a Python object graph: every children
dict has pairwise distinct keys. Every tree reachable through the
Trie operations satisfies this, because Python dicts cannot hold a key
twice. -/
def Node.wf [DecidableEq α] : Node α → Bool
  | .mk cs _ _ => keysNodup cs && wfL cs
/-- Well-formedness of every node in a children list. -/
def wfL [DecidableEq α] : List (α × Node α) → Bool
  | [] => true
  | (_, c) :: rest => Node.wf c && wfL rest
end

mutual
/-- Number of terminal nodes in the subtree rooted at a node,
inclusive: the count the size attribute is documented to hold. -/
def Node.termCount : Node α → Nat
  | .mk cs t _ => (if t then 1 else 0) + termCountL cs
/-- Terminal-node count summed over a children list. -/
def termCountL : List (α × Node α) → Nat
  | [] => 0
  | (_, c) :: rest => c.termCount + termCountL rest
end

/-- Modelled from the spec: construction of a Trie from an initial
collection of sequences, which the spec lists as part of the external
interface. The class in trie.py declares no constructor parameter for
it (its own test suite calls it nonetheless), so the constructor is
modelled from the spec as the empty trie populated by Trie.add, the
only insertion operation the interface has. -/
def fromColl [DecidableEq α] (l : List (List α)) : Node α :=
  l.foldl Node.add Node.empty

/-- collections.abc.MutableSet.remove, which Trie inherits: raise
KeyError(value) when the value is not a member, otherwise discard it.
The result is the tree after the call paired with the raised key, if
any; when the KeyError is raised the tree is returned exactly as it
was, because the exception fires before discard is reached. -/
def Node.remove [DecidableEq α] (n : Node α) (s : List α) :
    Node α × Option (List α) :=
  if n.member s then (n.discard s, none) else (n, some s)

/-! ## The heap model: object identity for Views

The View class caches a raw reference to a node and observes in-place
mutation of the tree, so its embedding keeps an explicit heap of node
objects addressed by allocation index. -/

/-- The attribute record of one Trie.Node object on the heap; children
maps names to node indices. -/
structure NodeData (α : Type) where
  children : List (α × Nat)
  terminal : Bool
  size : Nat
  deriving DecidableEq

/-- Trie.Node.__init__ as heap data. -/
def freshNode : NodeData α := ⟨[], false, 0⟩

/-- The Python object heap: node objects addressed by allocation
index. -/
abbrev Heap (α : Type) := List (NodeData α)

/-- Dereference a node index. Indices produced by the operations are
always in bounds; out-of-bounds reads return a fresh node to stay
total. -/
def hget : Heap α → Nat → NodeData α
  | [], _ => freshNode
  | d :: _, 0 => d
  | _ :: rest, i + 1 => hget rest i

/-- In-place update of the node object at an index. -/
def hset : Heap α → Nat → NodeData α → Heap α
  | [], _, _ => []
  | _ :: rest, 0, d => d :: rest
  | x :: rest, i + 1, d => x :: hset rest i d

/-- Trie.__init__: a heap holding only the root node, which has
index 0. -/
def freshHeap : Heap α := [freshNode]

/-- Trie.add on the heap: walk from the node at the given index,
allocating a fresh node object and inserting it into the children dict
whenever a name is missing, then set the final node's terminal flag. -/
def addGoH [DecidableEq α] : Heap α → Nat → List α → Heap α
  | h, i, [] =>
    hset h i ⟨(hget h i).children, true, (hget h i).size⟩
  | h, i, a :: s =>
    match findA (hget h i).children a with
    | some j => addGoH h j s
    | none =>
      let j := h.length
      let h1 := h ++ [freshNode]
      let h2 := hset h1 i
        ⟨insertA (hget h1 i).children a j, (hget h1 i).terminal,
          (hget h1 i).size⟩
      addGoH h2 j s

/-- Trie.add applied to the Trie root. -/
def addH [DecidableEq α] (h : Heap α) (s : List α) : Heap α :=
  addGoH h 0 s

/-- The unwind loop of Trie.discard: while the parent stack is nonempty
and the just-visited child has no children left, delete the child's
entry from its parent and continue with the parent (the loop checks
only the children dict, never the terminal flag). -/
def unwindH [DecidableEq α] :
    Heap α → List (α × Nat) → List (Nat × α) → Heap α
  | h, _, [] => h
  | h, descendents, (p, name) :: rest =>
    if descendents.isEmpty then
      let h1 := hset h p
        ⟨eraseA (hget h p).children name, (hget h p).terminal,
          (hget h p).size⟩
      unwindH h1 (hget h1 p).children rest
    else h

/-- The descent of Trie.discard: push (parent, name) pairs while
walking; return unchanged when a name is missing or the final node is
not terminal; otherwise clear the terminal flag and unwind. -/
def discardWalkH [DecidableEq α] :
    Heap α → Nat → List (Nat × α) → List α → Heap α
  | h, i, stack, [] =>
    if (hget h i).terminal then
      let h1 := hset h i ⟨(hget h i).children, false, (hget h i).size⟩
      unwindH h1 (hget h1 i).children stack
    else h
  | h, i, stack, a :: s =>
    match findA (hget h i).children a with
    | none => h
    | some j => discardWalkH h j ((i, a) :: stack) s

/-- Trie.discard applied to the Trie root. -/
def discardH [DecidableEq α] (h : Heap α) (s : List α) : Heap α :=
  discardWalkH h 0 [] s

/-- Trie.Node.__contains__ on the heap. -/
def memberH [DecidableEq α] : Heap α → Nat → List α → Bool
  | h, i, [] => (hget h i).terminal
  | h, i, a :: s =>
    match findA (hget h i).children a with
    | none => false
    | some j => memberH h j s

/-- Trie.Node.__iter__ on the heap. The fuel argument bounds the
recursion depth; the heaps built by the operations are acyclic, so any
fuel of at least the heap size enumerates the whole subtree. -/
def enumH : Heap α → Nat → Nat → List (List α)
  | _, 0, _ => []
  | h, fuel + 1, i =>
    (if (hget h i).terminal then [[]] else []) ++
      ((hget h i).children.map
        (fun p => (enumH h fuel p.2).map (fun s => p.1 :: s))).flatten

/-- The resolution walk of Trie.View._validate_root: follow the prefix
from the Trie root, failing when a name is missing. -/
def walkH [DecidableEq α] : Heap α → Nat → List α → Option Nat
  | _, i, [] => some i
  | h, i, a :: s =>
    match findA (hget h i).children a with
    | none => none
    | some j => walkH h j s

/-- The state of a Trie.View object: the prefix, the index of the Trie
root it was created from, and the cached index of the sub-trie root,
when resolved. -/
structure ViewState (α : Type) where
  pfx : List α
  trieRoot : Nat
  pfxRoot : Option Nat
  deriving DecidableEq

/-- Trie.View._validate_root: keep the cached node while it still has
children or is terminal; otherwise drop it and re-resolve by walking
the prefix from the Trie root. -/
def validateRootH [DecidableEq α] (h : Heap α) (v : ViewState α) :
    ViewState α :=
  match v.pfxRoot with
  | some r =>
    if !(hget h r).children.isEmpty || (hget h r).terminal then v
    else { v with pfxRoot := walkH h v.trieRoot v.pfx }
  | none => { v with pfxRoot := walkH h v.trieRoot v.pfx }

/-- Trie.View.__iter__: validate the cached root, yield nothing when it
is unresolved, otherwise yield every suffix of the sub-trie with the
prefix prepended. Returns the yielded sequences and the view state
after the call. -/
def viewIterH [DecidableEq α] (h : Heap α) (v : ViewState α) :
    List (List α) × ViewState α :=
  let v' := validateRootH h v
  match v'.pfxRoot with
  | none => ([], v')
  | some r => ((enumH h h.length r).map (fun s => v'.pfx ++ s), v')

/-- Trie.View.__len__: validate, then return the size attribute of the
resolved root, or 0 when unresolved. -/
def viewLenH [DecidableEq α] (h : Heap α) (v : ViewState α) :
    Nat × ViewState α :=
  let v' := validateRootH h v
  match v'.pfxRoot with
  | none => (0, v')
  | some r => ((hget h r).size, v')

/-- The prefix-consuming loop of Trie.View.__contains__: draw one
element of the tested sequence per prefix name via next(seq). Drawing
from an exhausted sequence raises StopIteration, modelled as none; a
mismatch returns False; when the prefix is exhausted the remaining
elements are tested against the resolved root. -/
def matchPfx [DecidableEq α] (h : Heap α) (r : Nat) :
    List α → List α → Option Bool
  | [], rest => some (memberH h r rest)
  | _ :: _, [] => none
  | p :: ps, x :: xs => if p ≠ x then some false else matchPfx h r ps xs

/-- Trie.View.__contains__: validate, return False when unresolved,
otherwise run the prefix-consuming loop. The Option is none exactly
when the call raises StopIteration. -/
def viewContainsH [DecidableEq α] (h : Heap α) (v : ViewState α)
    (q : List α) : Option Bool × ViewState α :=
  let v' := validateRootH h v
  match v'.pfxRoot with
  | none => (some false, v')
  | some r => (matchPfx h r v'.pfx q, v')

/-- The argument passed to Trie.__getitem__: either a reusable
container of names or a single-use iterator over them. -/
inductive SeqArg (α : Type) where
  | container (l : List α)
  | iterator (l : List α)

/-- The names the argument holds. -/
def SeqArg.toList : SeqArg α → List α
  | .container l => l
  | .iterator l => l

/-- The Python test `prefix is iter(prefix)`: iter of a container is a
fresh iterator object, while a single-use iterator's __iter__ returns
the iterator itself. -/
def SeqArg.isOwnIter : SeqArg α → Bool
  | .container _ => false
  | .iterator _ => true

/-- Trie.__getitem__: raise ValueError (modelled as Except.error) when
the argument is its own iterator, otherwise build a View with an
unresolved cached root. The heap is returned as received: the method
performs no tree walk and no mutation. -/
def getitemH (h : Heap α) (p : SeqArg α) :
    Except Unit (ViewState α) × Heap α :=
  if p.isOwnIter then (.error (), h)
  else (.ok ⟨p.toList, 0, none⟩, h)

/-- One public Trie method call, for quantifying over operation
sequences. Trie.__contains__ and Trie.__iter__ only read the tree, so
they leave the heap unchanged. -/
inductive TrieOp (α : Type) where
  | addOp (s : List α)
  | discardOp (s : List α)
  | containsOp (s : List α)
  | iterOp

/-- Apply one Trie method call to the heap. -/
def applyOp [DecidableEq α] (h : Heap α) : TrieOp α → Heap α
  | .addOp s => addH h s
  | .discardOp s => discardH h s
  | .containsOp _ => h
  | .iterOp => h

/-- The heap after a finite sequence of Trie method calls on a freshly
constructed Trie. -/
def applyOps [DecidableEq α] (ops : List (TrieOp α)) : Heap α :=
  ops.foldl applyOp freshHeap

/-! ## The View self-healing scenario -/

/-- The Trie of the View self-healing scenario: a freshly constructed
Trie holding only the word able. -/
def ableHeap : Heap Char := addH freshHeap "able".toList

/-- The View for the prefix ab over that Trie, as Trie.__getitem__
builds it: the cached root is not yet resolved. -/
def abView : ViewState Char := ⟨"ab".toList, 0, none⟩

/-- A first list(V) while able is stored; it binds the cached root. -/
def abIter1 : List (List Char) × ViewState Char :=
  viewIterH ableHeap abView

/-- The Trie after removing every stored sequence (able was the only
one). -/
def clearedHeap : Heap Char := discardH ableHeap "able".toList

/-- list(V) on the cleared Trie. -/
def abIter2 : List (List Char) × ViewState Char :=
  viewIterH clearedHeap abIter1.2

/-- The Trie after adding abstruse to the cleared Trie. -/
def abstruseHeap : Heap Char := addH clearedHeap "abstruse".toList

/-- list(V) after the re-insertion. -/
def abIter3 : List (List Char) × ViewState Char :=
  viewIterH abstruseHeap abIter2.2

/-! ## Lemmas about the association-list dict operations -/

theorem findA_insertA_self [DecidableEq α] (l : List (α × β)) (a : α) (v : β) :
    findA (insertA l a v) a = some v := by
  induction l with
  | nil => simp [insertA, findA]
  | cons p rest ih =>
    obtain ⟨k, w⟩ := p
    by_cases hk : k = a
    · simp [insertA, hk, findA]
    · simp [insertA, hk, findA, ih]

theorem findA_insertA_ne [DecidableEq α] (l : List (α × β)) {a b : α} (v : β)
    (h : b ≠ a) : findA (insertA l a v) b = findA l b := by
  have h' : a ≠ b := Ne.symm h
  induction l with
  | nil => simp [insertA, findA, h']
  | cons p rest ih =>
    obtain ⟨k, w⟩ := p
    by_cases hk : k = a
    · subst hk
      simp [insertA, findA, h']
    · simp only [insertA, if_neg hk, findA]
      by_cases hb : k = b <;> simp [hb, ih]

theorem findA_eraseA_ne [DecidableEq α] (l : List (α × β)) {a b : α}
    (h : b ≠ a) : findA (eraseA l a) b = findA l b := by
  have h' : a ≠ b := Ne.symm h
  induction l with
  | nil => simp [eraseA]
  | cons p rest ih =>
    obtain ⟨k, w⟩ := p
    by_cases hk : k = a
    · subst hk
      simp [eraseA, findA, h']
    · simp only [eraseA, if_neg hk, findA]
      by_cases hb : k = b <;> simp [hb, ih]

theorem mem_of_findA_eq_some [DecidableEq α] {l : List (α × β)} {a : α}
    {v : β} (h : findA l a = some v) : (a, v) ∈ l := by
  induction l with
  | nil => simp [findA] at h
  | cons p rest ih =>
    obtain ⟨k, w⟩ := p
    by_cases hk : k = a
    · subst hk
      simp [findA] at h
      simp [h]
    · simp [findA, hk] at h
      exact List.mem_cons_of_mem _ (ih h)

theorem hasKey_of_mem [DecidableEq α] {l : List (α × β)} {a : α} {v : β}
    (h : (a, v) ∈ l) : hasKey l a = true := by
  induction l with
  | nil => simp at h
  | cons p rest ih =>
    obtain ⟨k, w⟩ := p
    rcases List.mem_cons.mp h with h1 | h1
    · cases h1
      simp [hasKey, findA]
    · by_cases hk : k = a
      · simp [hasKey, findA, hk]
      · simpa [hasKey, findA, hk] using ih h1

theorem findA_eq_some_of_mem [DecidableEq α] {l : List (α × β)} {a : α}
    {v : β} (hn : keysNodup l = true) (h : (a, v) ∈ l) :
    findA l a = some v := by
  induction l with
  | nil => simp at h
  | cons p rest ih =>
    obtain ⟨k, w⟩ := p
    simp only [keysNodup, Bool.and_eq_true, Bool.not_eq_true'] at hn
    rcases List.mem_cons.mp h with h1 | h1
    · cases h1
      simp [findA]
    · by_cases hk : k = a
      · subst hk
        exact absurd (hasKey_of_mem h1) (by simp [hn.1])
      · simp [findA, hk, ih hn.2 h1]

theorem findA_eraseA_self [DecidableEq α] {l : List (α × β)} {a : α}
    (hn : keysNodup l = true) : findA (eraseA l a) a = none := by
  induction l with
  | nil => simp [eraseA, findA]
  | cons p rest ih =>
    obtain ⟨k, w⟩ := p
    simp only [keysNodup, Bool.and_eq_true, Bool.not_eq_true'] at hn
    by_cases hk : k = a
    · subst hk
      have : findA rest k = none := by
        cases hf : findA rest k with
        | none => rfl
        | some v => simpa [hasKey, hf] using hn.1
      simpa [eraseA] using this
    · simp [eraseA, hk, findA, ih hn.2]

theorem keysNodup_insertA [DecidableEq α] {l : List (α × β)} (a : α) (v : β)
    (hn : keysNodup l = true) : keysNodup (insertA l a v) = true := by
  induction l with
  | nil => simp [insertA, keysNodup, hasKey, findA]
  | cons p rest ih =>
    obtain ⟨k, w⟩ := p
    simp only [keysNodup, Bool.and_eq_true, Bool.not_eq_true'] at hn
    by_cases hk : k = a
    · subst hk
      simp [insertA, keysNodup, hasKey] at hn ⊢
      exact hn
    · have hkey : hasKey (insertA rest a v) k = false := by
        simp only [hasKey] at hn ⊢
        rw [findA_insertA_ne rest v hk]
        exact hn.1
      simp [insertA, hk, keysNodup, hkey, ih hn.2]

theorem keysNodup_eraseA [DecidableEq α] {l : List (α × β)} (a : α)
    (hn : keysNodup l = true) : keysNodup (eraseA l a) = true := by
  induction l with
  | nil => simp [eraseA, keysNodup]
  | cons p rest ih =>
    obtain ⟨k, w⟩ := p
    simp only [keysNodup, Bool.and_eq_true, Bool.not_eq_true'] at hn
    by_cases hk : k = a
    · subst hk
      simp [eraseA, hn.2]
    · have hkey : hasKey (eraseA rest a) k = false := by
        simp only [hasKey] at hn ⊢
        rw [findA_eraseA_ne rest hk]
        exact hn.1
      simp [eraseA, hk, keysNodup, hkey, ih hn.2]

theorem mem_insertA [DecidableEq α] {l : List (α × β)} {a : α} {v : β}
    {p : α × β} (h : p ∈ insertA l a v) : p = (a, v) ∨ p ∈ l := by
  induction l with
  | nil => simpa [insertA] using h
  | cons q rest ih =>
    obtain ⟨k, w⟩ := q
    by_cases hk : k = a
    · subst hk
      rcases List.mem_cons.mp (by simpa [insertA] using h) with h1 | h1
      · exact Or.inl h1
      · exact Or.inr (List.mem_cons_of_mem _ h1)
    · rcases List.mem_cons.mp (by simpa [insertA, hk] using h) with h1 | h1
      · exact Or.inr (by simp [h1])
      · rcases ih h1 with h2 | h2
        · exact Or.inl h2
        · exact Or.inr (List.mem_cons_of_mem _ h2)

theorem mem_eraseA [DecidableEq α] {l : List (α × β)} {a : α} {p : α × β}
    (h : p ∈ eraseA l a) : p ∈ l := by
  induction l with
  | nil => simp [eraseA] at h
  | cons q rest ih =>
    obtain ⟨k, w⟩ := q
    by_cases hk : k = a
    · exact List.mem_cons_of_mem _ (by simpa [eraseA, hk] using h)
    · rcases List.mem_cons.mp (by simpa [eraseA, hk] using h) with h1 | h1
      · simp [h1]
      · exact List.mem_cons_of_mem _ (ih h1)

/-! ## Well-formedness lemmas -/

theorem wfL_iff [DecidableEq α] (cs : List (α × Node α)) :
    wfL cs = true ↔ ∀ p ∈ cs, Node.wf p.2 = true := by
  induction cs with
  | nil => simp [wfL]
  | cons p rest ih =>
    obtain ⟨a, c⟩ := p
    simp [wfL, Bool.and_eq_true, ih]

theorem wf_children_nodup [DecidableEq α] {n : Node α} (h : n.wf = true) :
    keysNodup n.children = true := by
  cases n with
  | mk cs t sz =>
    simp only [Node.wf, Bool.and_eq_true] at h
    exact h.1

theorem wf_child [DecidableEq α] {n : Node α} {a : α} {c : Node α}
    (h : n.wf = true) (hf : findA n.children a = some c) : c.wf = true := by
  cases n with
  | mk cs t sz =>
    simp only [Node.wf, Bool.and_eq_true] at h
    exact (wfL_iff cs).mp h.2 (a, c) (mem_of_findA_eq_some hf)

theorem wf_empty [DecidableEq α] : (Node.empty : Node α).wf = true := by
  simp [Node.empty, Node.wf, keysNodup, wfL]

/-! ## Membership lemmas for add and discard -/

theorem member_empty [DecidableEq α] (s : List α) :
    (Node.empty : Node α).member s = false := by
  cases s <;>
    simp [Node.empty, Node.member, Node.terminal, Node.children, findA]

theorem member_add_self [DecidableEq α] (s : List α) :
    ∀ n : Node α, (n.add s).member s = true := by
  induction s with
  | nil =>
    intro n
    cases n with
    | mk cs t sz => simp [Node.add, Node.member, Node.terminal]
  | cons a s ih =>
    intro n
    cases n with
    | mk cs t sz =>
      simp only [Node.add, Node.member, Node.children]
      rw [findA_insertA_self]
      exact ih _

theorem member_add_ne [DecidableEq α] {t : List α} :
    ∀ {s : List α} (n : Node α), s ≠ t →
      (n.add t).member s = n.member s := by
  induction t with
  | nil =>
    intro s n hst
    cases n with
    | mk cs tt sz =>
      cases s with
      | nil => exact absurd rfl hst
      | cons a s' => simp [Node.add, Node.member, Node.children]
  | cons b t' ih =>
    intro s n hst
    cases n with
    | mk cs tt sz =>
      cases s with
      | nil => simp [Node.add, Node.member, Node.terminal]
      | cons a s' =>
        by_cases hab : a = b
        · subst hab
          have hs' : s' ≠ t' := fun hc => hst (by rw [hc])
          simp only [Node.add, Node.member, Node.children]
          rw [findA_insertA_self]
          cases hf : findA cs a with
          | none => simp [ih _ hs', member_empty]
          | some c0 => simp [ih _ hs']
        · simp only [Node.add, Node.member, Node.children]
          rw [findA_insertA_ne cs _ hab]

theorem member_add_iff [DecidableEq α] (n : Node α) (t s : List α) :
    (n.add t).member s = true ↔ n.member s = true ∨ s = t := by
  by_cases hst : s = t
  · subst hst
    simp [member_add_self]
  · rw [member_add_ne n hst]
    simp [hst]

theorem discardGo_eq_none_iff [DecidableEq α] :
    ∀ (s : List α) (n : Node α),
      n.discardGo s = none ↔ n.member s = false := by
  intro s
  induction s with
  | nil =>
    intro n
    cases n with
    | mk cs t sz =>
      cases t <;>
        simp [Node.discardGo, Node.member, Node.terminal]
  | cons a s ih =>
    intro n
    cases n with
    | mk cs t sz =>
      simp only [Node.discardGo, Node.member, Node.children]
      cases hf : findA cs a with
      | none => simp
      | some c =>
        cases hg : c.discardGo s with
        | none => simp [hg, (ih c).mp hg]
        | some c' =>
          obtain ⟨cs', t', sz'⟩ := c'
          have hm : c.member s = true := by
            cases hmem : c.member s with
            | false => exact absurd ((ih c).mpr hmem) (by simp [hg])
            | true => rfl
          by_cases he : cs'.isEmpty <;>
            simp [hg, he, hm, Node.children]

theorem member_discard_self [DecidableEq α] :
    ∀ (s : List α) (n : Node α), n.wf = true →
      (n.discard s).member s = false := by
  intro s
  induction s with
  | nil =>
    intro n hw
    cases n with
    | mk cs t sz =>
      cases t <;>
        simp [Node.discard, Node.discardGo, Node.member, Node.terminal,
          Node.children, Node.size]
  | cons a s ih =>
    intro n hw
    cases n with
    | mk cs t sz =>
      have hnodup : keysNodup cs = true := wf_children_nodup hw
      simp only [Node.discard, Node.discardGo, Node.member, Node.children]
      cases hf : findA cs a with
      | none => simp [hf]
      | some c =>
        cases hg : c.discardGo s with
        | none =>
          have hm : c.member s = false := (discardGo_eq_none_iff s c).mp hg
          simp [hf, hg, hm]
        | some c' =>
          have hc' : (c.discard s).member s = false :=
            ih c (wf_child hw (by simpa [Node.children] using hf))
          rw [Node.discard, hg] at hc'
          simp only [Option.getD_some] at hc'
          obtain ⟨cs', t', sz'⟩ := c'
          by_cases he : cs'.isEmpty
          · have hnone : findA (eraseA cs a) a = none :=
              findA_eraseA_self hnodup
            simp [hf, hg, he, Node.member, Node.children, hnone]
          · simp [hf, hg, he, Node.member, Node.children,
              findA_insertA_self, hc']

theorem wf_add [DecidableEq α] :
    ∀ (s : List α) (n : Node α), n.wf = true → (n.add s).wf = true := by
  intro s
  induction s with
  | nil =>
    intro n hw
    cases n with
    | mk cs t sz => simpa [Node.add, Node.wf] using hw
  | cons a s ih =>
    intro n hw
    cases n with
    | mk cs t sz =>
      simp only [Node.wf, Bool.and_eq_true] at hw
      have hv : (((findA cs a).getD Node.empty).add s).wf = true := by
        cases hf : findA cs a with
        | none => simpa using ih _ wf_empty
        | some c0 =>
          have : c0.wf = true :=
            (wfL_iff cs).mp hw.2 (a, c0) (mem_of_findA_eq_some hf)
          simpa [hf] using ih _ this
      simp only [Node.add, Node.wf, Bool.and_eq_true]
      refine ⟨keysNodup_insertA a _ hw.1, ?_⟩
      rw [wfL_iff]
      intro p hp
      rcases mem_insertA hp with h1 | h1
      · rw [h1]
        exact hv
      · exact (wfL_iff cs).mp hw.2 p h1

theorem member_foldl_add [DecidableEq α] :
    ∀ (l : List (List α)) (n : Node α) (s : List α),
      (l.foldl Node.add n).member s = true ↔
        n.member s = true ∨ s ∈ l := by
  intro l
  induction l with
  | nil => simp
  | cons t l ih =>
    intro n s
    simp only [List.foldl_cons, List.mem_cons]
    rw [ih, member_add_iff]
    tauto

/-! ## Enumeration lemmas -/

theorem mem_enumL {x : List α} {cs : List (α × Node α)} :
    x ∈ enumL cs ↔
      ∃ a c, (a, c) ∈ cs ∧ ∃ s, s ∈ Node.enum c ∧ x = a :: s := by
  induction cs with
  | nil => simp [enumL]
  | cons p rest ih =>
    obtain ⟨a, c⟩ := p
    simp only [enumL, List.mem_append, List.mem_map, ih, List.mem_cons]
    constructor
    · rintro (⟨s, hs, rfl⟩ | ⟨a', c', hm, s, hs, rfl⟩)
      · exact ⟨a, c, Or.inl rfl, s, hs, rfl⟩
      · exact ⟨a', c', Or.inr hm, s, hs, rfl⟩
    · rintro ⟨a', c', h1 | h1, s, hs, rfl⟩
      · cases h1
        exact Or.inl ⟨s, hs, rfl⟩
      · exact Or.inr ⟨a', c', h1, s, hs, rfl⟩

theorem mem_enum_iff_member [DecidableEq α] :
    ∀ (s : List α) (n : Node α), n.wf = true →
      (s ∈ n.enum ↔ n.member s = true) := by
  intro s
  induction s with
  | nil =>
    intro n hw
    cases n with
    | mk cs t sz =>
      simp only [Node.enum, Node.member, Node.terminal, List.mem_append,
        mem_enumL]
      constructor
      · rintro (h1 | ⟨a, c, hm, s', hs', h⟩)
        · cases t with
          | true => rfl
          | false => simp at h1
        · cases h
      · intro ht
        left
        simp [ht]
  | cons a s ih =>
    intro n hw
    cases n with
    | mk cs t sz =>
      simp only [Node.wf, Bool.and_eq_true] at hw
      simp only [Node.enum, Node.member, Node.children, List.mem_append,
        mem_enumL]
      constructor
      · rintro (h1 | ⟨a', c, hm, s', hs', heq⟩)
        · cases t <;> simp at h1
        · injection heq with h1 h2
          subst h1
          subst h2
          rw [findA_eq_some_of_mem hw.1 hm]
          exact (ih c ((wfL_iff cs).mp hw.2 _ hm)).mp hs'
      · intro hmem
        cases hf : findA cs a with
        | none => rw [hf] at hmem; simp at hmem
        | some c =>
          rw [hf] at hmem
          right
          have hcw : c.wf = true :=
            (wfL_iff cs).mp hw.2 (a, c) (mem_of_findA_eq_some hf)
          exact ⟨a, c, mem_of_findA_eq_some hf, s,
            (ih c hcw).mpr hmem, rfl⟩

theorem enum_empty : (Node.empty : Node α).enum = [] := by
  simp [Node.empty, Node.enum, enumL]

theorem enum_add_nil [DecidableEq α] :
    ((Node.empty : Node α).add []).enum = [[]] := by
  simp [Node.empty, Node.add, Node.enum, enumL]

/-! ## Heap lemmas: the size counter is never written -/

theorem hget_size_zero {h : Heap α} (hz : ∀ d ∈ h, d.size = 0)
    (i : Nat) : (hget h i).size = 0 := by
  induction h generalizing i with
  | nil => simp [hget, freshNode]
  | cons d rest ih =>
    cases i with
    | zero => exact hz d (by simp [hget])
    | succ j =>
      exact ih (fun e he => hz e (List.mem_cons_of_mem _ he)) j

theorem hset_size_zero {h : Heap α} (hz : ∀ d ∈ h, d.size = 0)
    (d0 : NodeData α) (h0 : d0.size = 0) (i : Nat) :
    ∀ d ∈ hset h i d0, d.size = 0 := by
  induction h generalizing i with
  | nil => simp [hset]
  | cons e rest ih =>
    cases i with
    | zero =>
      intro d hd
      rcases List.mem_cons.mp hd with rfl | hd
      · exact h0
      · exact hz d (List.mem_cons_of_mem _ hd)
    | succ j =>
      intro d hd
      rcases List.mem_cons.mp hd with rfl | hd
      · exact hz d (by simp)
      · exact ih (fun e' he' => hz e' (List.mem_cons_of_mem _ he')) j d hd

theorem hset_keep_size {h : Heap α} (hz : ∀ d ∈ h, d.size = 0)
    (i : Nat) (cs : List (α × Nat)) (t : Bool) :
    ∀ d ∈ hset h i ⟨cs, t, (hget h i).size⟩, d.size = 0 :=
  hset_size_zero hz ⟨cs, t, (hget h i).size⟩ (hget_size_zero hz i) i

theorem addGoH_size_zero [DecidableEq α] :
    ∀ (s : List α) (h : Heap α) (i : Nat),
      (∀ d ∈ h, d.size = 0) → ∀ d ∈ addGoH h i s, d.size = 0 := by
  intro s
  induction s with
  | nil =>
    intro h i hz
    exact hset_keep_size hz i (hget h i).children true
  | cons a s ih =>
    intro h i hz
    simp only [addGoH]
    cases hf : findA (hget h i).children a with
    | some j => exact ih h j hz
    | none =>
      have hz1 : ∀ d ∈ h ++ [freshNode], d.size = 0 := by
        intro d hd
        rcases List.mem_append.mp hd with hd | hd
        · exact hz d hd
        · simp at hd
          simp [hd, freshNode]
      refine ih _ _ ?_
      exact hset_keep_size hz1 i _ _

theorem unwindH_size_zero [DecidableEq α] :
    ∀ (stack : List (Nat × α)) (h : Heap α) (ds : List (α × Nat)),
      (∀ d ∈ h, d.size = 0) → ∀ d ∈ unwindH h ds stack, d.size = 0 := by
  intro stack
  induction stack with
  | nil =>
    intro h ds hz
    simpa [unwindH] using hz
  | cons p rest ih =>
    intro h ds hz
    obtain ⟨q, name⟩ := p
    by_cases he : ds.isEmpty
    · simp only [unwindH, he, if_pos]
      exact ih _ _ (hset_keep_size hz q _ _)
    · simpa [unwindH, he] using hz

theorem discardWalkH_size_zero [DecidableEq α] :
    ∀ (s : List α) (h : Heap α) (i : Nat) (stack : List (Nat × α)),
      (∀ d ∈ h, d.size = 0) →
      ∀ d ∈ discardWalkH h i stack s, d.size = 0 := by
  intro s
  induction s with
  | nil =>
    intro h i stack hz
    by_cases ht : (hget h i).terminal
    · simp only [discardWalkH, ht, if_pos]
      exact unwindH_size_zero _ _ _ (hset_keep_size hz i _ _)
    · simpa [discardWalkH, ht] using hz
  | cons a s ih =>
    intro h i stack hz
    simp only [discardWalkH]
    cases hf : findA (hget h i).children a with
    | none => simpa using hz
    | some j => exact ih h j _ hz

theorem applyOps_size_zero [DecidableEq α] :
    ∀ (ops : List (TrieOp α)), ∀ d ∈ applyOps ops, d.size = 0 := by
  have step : ∀ (ops : List (TrieOp α)) (h : Heap α),
      (∀ d ∈ h, d.size = 0) → ∀ d ∈ ops.foldl applyOp h, d.size = 0 := by
    intro ops
    induction ops with
    | nil => intro h hz; simpa using hz
    | cons op rest ih =>
      intro h hz
      refine ih _ ?_
      cases op with
      | addOp s => exact addGoH_size_zero s h 0 hz
      | discardOp s => exact discardWalkH_size_zero s h 0 [] hz
      | containsOp s => exact hz
      | iterOp => exact hz
  intro ops
  exact step ops freshHeap (by simp [freshHeap, freshNode])

/-! ## The claims -/

/-- C1: the claim states that discard(S) removes only S, the unwind
stopping at any node that still has other children or is itself
terminal, so every other stored sequence, in particular every stored
proper prefix of S, is still a member afterwards. The code fails this:
its unwind loop checks only childlessness and never the terminal flag,
so in the trie storing [0] and [0, 1], discarding [0, 1] also deletes
the terminal node of the stored proper prefix [0], which is no longer
a member afterwards. -/
theorem claim_C1_code_bug :
    (((Node.empty : Node Nat).add [0]).add [0, 1]).member [0] = true ∧
    (((Node.empty : Node Nat).add [0]).add [0, 1]).member [0, 1]
      = true ∧
    ((((Node.empty : Node Nat).add [0]).add [0, 1]).discard
      [0, 1]).member [0, 1] = false ∧
    ((((Node.empty : Node Nat).add [0]).add [0, 1]).discard
      [0, 1]).member [0] = false := by
  decide

/-- C2: the claim states that every Node's size field equals the number
of terminal nodes in its subtree, maintained along the path on every
membership-changing add and discard, so that length() returns the
number of stored sequences. The code fails this: add and discard never
write the size field, so after inserting [0] into a fresh Trie the root
holds one terminal node in its subtree while its size, and hence
len(trie), is still 0. -/
theorem claim_C2_code_bug :
    ((Node.empty : Node Nat).add [0]).member [0] = true ∧
    ((Node.empty : Node Nat).add [0]).termCount = 1 ∧
    ((Node.empty : Node Nat).add [0]).size = 0 := by
  decide

/-- C3: the claim states that a View's containment test returns False,
never raising, for every tested sequence shorter than the prefix or
diverging from it. The code fails the shorter case: with a live
resolved root, next(seq) on the exhausted tested sequence raises
StopIteration (the none below), though the two diverging cases do
return False as claimed. -/
theorem claim_C3_code_bug :
    (viewContainsH ableHeap abView ['a']).1 = none ∧
    (viewContainsH ableHeap abView ['a', 'x']).1 = some false ∧
    (viewContainsH ableHeap abView ['x', 'y']).1 = some false := by
  decide

/-- C4: a Trie built from an initial collection of sequences contains
exactly the sequences of that collection, and the empty-constructor
form contains nothing. Proved of the spec-modelled constructor
fromColl; the constructor in trie.py itself accepts no collection
argument. -/
theorem claim_C4 [DecidableEq α] (l : List (List α)) (s : List α) :
    ((fromColl l).member s = true ↔ s ∈ l) ∧
    (Node.empty : Node α).member s = false := by
  refine ⟨?_, member_empty s⟩
  rw [fromColl, member_foldl_add]
  simp [member_empty]

/-- C5: View self-healing. Over a Trie holding only able, a View for
the prefix ab is iterated once, binding its cached root to the node at
index 2; after every sequence is removed, iterating the View yields
nothing and the cache is dropped; after abstruse is added, iterating
the View yields exactly abstruse and the cache now holds index 6, at
least clearedHeap.length = 5, hence a node created by the re-insertion
rather than the destroyed node 2. -/
theorem claim_C5 :
    abIter1.1 = ["able".toList] ∧
    abIter1.2.pfxRoot = some 2 ∧
    abIter2.1 = [] ∧
    abIter2.2.pfxRoot = none ∧
    abIter3.1 = ["abstruse".toList] ∧
    abIter3.2.pfxRoot = some 6 ∧
    clearedHeap.length = 5 := by
  decide

/-- C6: for every Trie state and sequence S, immediately after add(S)
the Trie contains S, and after a subsequent discard(S) it does not. -/
theorem claim_C6 [DecidableEq α] (n : Node α) (s : List α)
    (hw : n.wf = true) :
    (n.add s).member s = true ∧
    ((n.add s).discard s).member s = false :=
  ⟨member_add_self s n, member_discard_self s (n.add s) (wf_add s n hw)⟩

/-- Witness for C6 at the empty Trie and the sequence [0]. -/
theorem claim_C6_witness :
    (Node.empty : Node Nat).wf = true ∧
    ((Node.empty : Node Nat).add [0]).member [0] = true ∧
    (((Node.empty : Node Nat).add [0]).discard [0]).member [0]
      = false :=
  ⟨by decide, (claim_C6 Node.empty [0] (by decide)).1,
    (claim_C6 Node.empty [0] (by decide)).2⟩

/-- C7: Trie.__getitem__ raises ValueError exactly when the argument is
its own iterator, and in both outcomes the heap, hence the Trie, is
returned untouched: the check precedes any tree walk, and a reusable
container yields a View with prefix bound and cache unresolved. -/
theorem claim_C7 (h : Heap α) (l : List α) :
    getitemH h (SeqArg.container l) = (Except.ok ⟨l, 0, none⟩, h) ∧
    getitemH h (SeqArg.iterator l) = (Except.error (), h) := by
  constructor <;> rfl

/-- C8: strict remove on a non-member raises KeyError and leaves the
tree exactly as it was; remove on a member succeeds, removing it like
discard, after which the sequence is no longer a member. -/
theorem claim_C8 [DecidableEq α] (n : Node α) (s : List α)
    (hw : n.wf = true) :
    (n.member s = false → n.remove s = (n, some s)) ∧
    (n.member s = true →
      n.remove s = (n.discard s, none) ∧
        (n.discard s).member s = false) := by
  constructor
  · intro hm
    simp [Node.remove, hm]
  · intro hm
    exact ⟨by simp [Node.remove, hm], member_discard_self s n hw⟩

/-- Witness for C8 on the Trie holding [0]: removing the non-member [1]
raises and leaves the tree unchanged, removing the member [0]
succeeds. -/
theorem claim_C8_witness :
    ((Node.empty : Node Nat).add [0]).wf = true ∧
    ((Node.empty : Node Nat).add [0]).member [1] = false ∧
    ((Node.empty : Node Nat).add [0]).remove [1]
      = ((Node.empty : Node Nat).add [0], some [1]) ∧
    ((Node.empty : Node Nat).add [0]).member [0] = true ∧
    ((Node.empty : Node Nat).add [0]).remove [0]
      = (((Node.empty : Node Nat).add [0]).discard [0], none) ∧
    (((Node.empty : Node Nat).add [0]).discard [0]).member [0]
      = false :=
  ⟨by decide, by decide,
    (claim_C8 ((Node.empty : Node Nat).add [0]) [1] (by decide)).1
      (by decide),
    by decide,
    ((claim_C8 ((Node.empty : Node Nat).add [0]) [0] (by decide)).2
      (by decide)).1,
    ((claim_C8 ((Node.empty : Node Nat).add [0]) [0] (by decide)).2
      (by decide)).2⟩

/-- C9: Trie iteration, defined by the recursive rule of
Trie.Node.__iter__, yields exactly the stored member sequences; the
empty Trie enumerates to nothing and the Trie holding only the empty
sequence enumerates to exactly one empty result. -/
theorem claim_C9 [DecidableEq α] (n : Node α) (hw : n.wf = true)
    (s : List α) :
    (s ∈ n.enum ↔ n.member s = true) ∧
    (Node.empty : Node α).enum = [] ∧
    ((Node.empty : Node α).add []).enum = [[]] :=
  ⟨mem_enum_iff_member s n hw, enum_empty, enum_add_nil⟩

/-- Witness for C9 on the Trie holding [0]. -/
theorem claim_C9_witness :
    ((Node.empty : Node Nat).add [0]).wf = true ∧
    (([0] ∈ ((Node.empty : Node Nat).add [0]).enum ↔
        ((Node.empty : Node Nat).add [0]).member [0] = true) ∧
      (Node.empty : Node Nat).enum = [] ∧
      ((Node.empty : Node Nat).add []).enum = [[]]) :=
  ⟨by decide, claim_C9 ((Node.empty : Node Nat).add [0]) (by decide) [0]⟩

/-- C10: after every finite sequence of add, discard, contains and
iteration operations on a freshly constructed Trie, every node object
ever allocated still has size 0, so len(trie) and len(view), for any
View state over that heap, return 0 no matter how many sequences are
stored. -/
theorem claim_C10 [DecidableEq α] (ops : List (TrieOp α)) :
    (∀ d ∈ applyOps ops, d.size = 0) ∧
    (hget (applyOps ops) 0).size = 0 ∧
    ∀ v : ViewState α, (viewLenH (applyOps ops) v).1 = 0 := by
  refine ⟨applyOps_size_zero ops,
    hget_size_zero (applyOps_size_zero ops) 0, ?_⟩
  intro v
  rw [viewLenH]
  cases hr : (validateRootH (applyOps ops) v).pfxRoot with
  | none => simp [hr]
  | some r => simp [hr, hget_size_zero (applyOps_size_zero ops) r]

/-- Witness for C10 on a concrete operation sequence that stores two
sequences and a concrete View. -/
theorem claim_C10_witness :
    (hget (applyOps ([TrieOp.addOp [0], TrieOp.addOp [0, 1],
      TrieOp.discardOp [0], TrieOp.containsOp [0],
      TrieOp.iterOp] : List (TrieOp Nat))) 0).size = 0 ∧
    (viewLenH (applyOps ([TrieOp.addOp [0]] : List (TrieOp Nat)))
      ⟨[0], 0, none⟩).1 = 0 :=
  ⟨(claim_C10 _).2.1, (claim_C10 _).2.2 _⟩
